import Mathlib

/-!
Shallow embedding of the cppunicode repository (files `utf_conversions.h` and
`unic.h`) and verification of its specification claims.

Bytes and code points are modelled as `Nat`.  `char32_t` arithmetic is taken
modulo `2 ^ 32` wherever the C++ computation can wrap, and `char16_t` casts
are taken modulo `2 ^ 16`.  A C++ function that can fail is modelled with
`Option` / `Except` / an explicit result inductive, as documented at each
definition.
-/

namespace Cppunicode

/-- Embeds `detail::utf8_trail_byte` from `utf_conversions.h`: a trailing byte
outside `[0x80, 0xBF]` yields `none` (the C++ `return false`); otherwise the
accumulator is folded as `(out << 6) | (in & 0x3F)` in 32-bit arithmetic. -/
def utf8_trail_byte (inb : Nat) (out : Nat) : Option Nat :=
  if inb < 0x80 ∨ 0xBF < inb then none
  else some (((out <<< 6) ||| (inb &&& 0x3F)) % 2 ^ 32)

/-- Embeds `detail::utf8_header_byte` from `utf_conversions.h`.  The C++
function returns the trailing-byte count (`-1` on an illegal header, modelled
as `none`) and writes the seed bits through a reference, modelled as the
second component. -/
def utf8_header_byte (inb : Nat) : Option (Nat × Nat) :=
  if inb < 0x80 then some (0, inb)
  else if inb < 0xC0 then none
  else if inb < 0xE0 then some (1, inb &&& 0x1F)
  else if inb < 0xF0 then some (2, inb &&& 0x0F)
  else if inb < 0xF8 then some (3, inb &&& 0x07)
  else none

/-- Result of the trail-byte loop of `convert` (`utf_conversions.h`, lines
59–61).  `oob` marks the branch in which the C++ loop would dereference
`u8_begin` at or past `u8_end`; `convert` guards against it, and theorem
`C10_no_oob` below proves the branch unreachable. -/
inductive TrailRes where
  | oob : TrailRes
  | bad : TrailRes
  | ok (cp : Nat) : TrailRes
deriving DecidableEq

/-- The trail-byte loop of `convert`: fold `n` trailing bytes from the front
of `l` into the accumulator `cp` with `utf8_trail_byte`. -/
def convertTrails : Nat → List Nat → Nat → TrailRes
  | 0, _, cp => .ok cp
  | _ + 1, [], _ => .oob
  | n + 1, b :: rest, cp =>
    match utf8_trail_byte b cp with
    | none => .bad
    | some cp' => convertTrails n rest cp'

/-- Result of `convert`: `fail` models the `-1` sentinel, `ok count out`
models a non-negative return value `count` together with the UTF-16 units
written through `u16out` (empty in dry-run mode).  Units written before a
failure are discarded by the sentinel return and are not modelled.  `oob`
marks the unreachable out-of-bounds read, as in `TrailRes`. -/
inductive ConvResult where
  | oob : ConvResult
  | fail : ConvResult
  | ok (count : Nat) (out : List Nat) : ConvResult
deriving DecidableEq

/-- The emit step of `convert` (`utf_conversions.h` lines 63–77) applied to
one decoded code point, combined with the result of the rest of the loop:
in `write` mode the units go through `u16out` (with `char16_t` casts taken
modulo `2 ^ 16` and the `code_point -= 0x10000` underflow taken modulo
`2 ^ 32`); both modes advance the count identically. -/
def convertEmit (write : Bool) (cp : Nat) : ConvResult → ConvResult
  | .ok n out =>
    if cp < 0xFFFF then
      .ok (1 + n) ((if write then [cp % 2 ^ 16] else []) ++ out)
    else
      .ok (2 + n)
        ((if write then
            [((((cp + 2 ^ 32 - 0x10000) % 2 ^ 32) >>> 10 + 0xD800) % 2 ^ 16),
             ((((cp + 2 ^ 32 - 0x10000) % 2 ^ 32) &&& 0x3FF) + 0xDC00) % 2 ^ 16]
          else []) ++ out)
  | e => e

/-- Embeds `convert` from `utf_conversions.h`.  `write` models
`u16out != nullptr`.  Each loop iteration classifies the header, checks the
truncation guard `byte_cnt > u8_end - u8_begin`, folds the trailing bytes,
emits, and continues past the consumed bytes. -/
def convert (write : Bool) (l : List Nat) : ConvResult :=
  match l with
  | [] => .ok 0 []
  | b :: rest =>
    match utf8_header_byte b with
    | none => .fail
    | some (cnt, seed) =>
      if cnt > rest.length then .fail
      else
        match convertTrails cnt rest seed with
        | .oob => .oob
        | .bad => .fail
        | .ok cp => convertEmit write cp (convert write (rest.drop cnt))
termination_by l.length
decreasing_by
  simp only [List.length_cons, List.length_drop]
  omega

/-- The decode step of one iteration of `convert`'s loop (`utf_conversions.h`
lines 53–61): header classification, the truncation guard, and the trail-byte
loop, yielding the decoded code point when all of them pass. -/
def convertDecode (l : List Nat) : Option Nat :=
  match l with
  | [] => none
  | b :: rest =>
    match utf8_header_byte b with
    | none => none
    | some (cnt, seed) =>
      if cnt > rest.length then none
      else
        match convertTrails cnt rest seed with
        | .ok cp => some cp
        | _ => none

end Cppunicode

namespace Unic

/-- Count of leading one bits of an 8-bit value: models
`std::countl_one(static_cast<unsigned char>(header))` as used by
`from_utf8_range::iterator::compute_byte_count` in `unic.h`. -/
def countl_one (b : Nat) : Nat :=
  if b.testBit 7 = false then 0
  else if b.testBit 6 = false then 1
  else if b.testBit 5 = false then 2
  else if b.testBit 4 = false then 3
  else if b.testBit 3 = false then 4
  else if b.testBit 2 = false then 5
  else if b.testBit 1 = false then 6
  else if b.testBit 0 = false then 7
  else 8

/-- Embeds `from_utf8_range::iterator::compute_byte_count` from `unic.h`:
returns the total byte count of the sequence (`-1`, modelled `none`, on
failure). -/
def compute_byte_count (b : Nat) : Option Nat :=
  let cnt := countl_one b
  if cnt = 0 then some 1
  else if cnt < 2 ∨ cnt > 6 then none
  else some cnt

/-- The two exception messages the lazy decoder can raise
(`utf_positioned_error` in `unic.h`): `lengthHeader` is
"Length in header byte is wrong" (raised both for an invalid header and for a
truncated sequence), `illegalTrail` is "Illegal trail byte". -/
inductive ErrKind where
  | lengthHeader : ErrKind
  | illegalTrail : ErrKind
deriving DecidableEq

/-- The trail-byte loop of `from_utf8_range::iterator::operator*` (`unic.h`
lines 147–154): fold `n` trailing bytes into `cp`, reporting the offset `i`
of the first byte outside `[0x80, 0xBF]`.  The `[]` case is unreachable
because the caller has checked `cnt ≤` the remaining length. -/
def decodeTrails : List Nat → Nat → Nat → Nat → Except (Nat × ErrKind) Nat
  | _, 0, cp, _ => .ok cp
  | [], _ + 1, _, i => .error (i, .illegalTrail)
  | b :: rest, n + 1, cp, i =>
    if b < 0x80 ∨ 0xBF < b then .error (i, .illegalTrail)
    else decodeTrails rest n (((cp <<< 6) ||| (b &&& 0x3F)) % 2 ^ 32) (i + 1)

/-- Embeds `from_utf8_range::iterator::operator*` from `unic.h`.  The
iterator state is the remaining byte suffix `l` (cursor `m_begin` to `m_end`);
error positions are byte offsets from the cursor.  Dereferencing the end
iterator is outside the C++ contract; for `l = []` every header count fails
the length guard, so the embedding reports the guard's error. -/
def deref (l : List Nat) : Except (Nat × ErrKind) Nat :=
  match l with
  | [] => .error (0, .lengthHeader)
  | b :: rest =>
    match compute_byte_count b with
    | none => .error (0, .lengthHeader)
    | some cnt =>
      if cnt > rest.length + 1 then .error (0, .lengthHeader)
      else if cnt = 1 then .ok b
      else decodeTrails rest (cnt - 1) (b &&& (255 >>> (cnt + 1))) 1

/-- Embeds `from_utf8_range::iterator::operator++` from `unic.h`: re-run the
header classification and length guard only, then advance the cursor by the
sequence's total byte count. -/
def advance (l : List Nat) : Except (Nat × ErrKind) (List Nat) :=
  match l with
  | [] => .error (0, .lengthHeader)
  | b :: rest =>
    match compute_byte_count b with
    | none => .error (0, .lengthHeader)
    | some cnt =>
      if cnt > rest.length + 1 then .error (0, .lengthHeader)
      else .ok ((b :: rest).drop cnt)

/-- `compute_byte_count` never returns a zero count. -/
theorem compute_byte_count_pos {b cnt : Nat} (h : compute_byte_count b = some cnt) :
    1 ≤ cnt := by
  simp only [compute_byte_count] at h
  split at h
  · simp at h; omega
  · split at h
    · simp at h
    · simp at h; omega

/-- A successful `advance` on a nonempty suffix strictly shortens it. -/
theorem advance_shrinks {l l' : List Nat} (hne : l ≠ []) (h : advance l = .ok l') :
    l'.length < l.length := by
  match l with
  | [] => exact absurd rfl hne
  | b :: rest =>
    simp only [advance] at h
    split at h
    · simp at h
    · rename_i cnt hc
      split at h
      · simp at h
      · simp only [Except.ok.injEq] at h
        subst h
        have h1 := compute_byte_count_pos hc
        simp only [List.length_drop, List.length_cons]
        omega

/-- Iterating the `from_utf8_range` iterator over the whole range (the decode
loop underlying `to_utf32` / `std::ranges::copy`): dereference, then
advance, collecting the code points.  A raised exception is collapsed to
`none`; its position and kind are those of `deref` / `advance` at the failing
step. -/
def decodeAll (l : List Nat) : Option (List Nat) :=
  if h : l = [] then some []
  else
    match deref l, ha : advance l with
    | .ok cp, .ok l' => (decodeAll l').map (cp :: ·)
    | _, _ => none
termination_by l.length
decreasing_by
  exact advance_shrinks h ha

/-- The single failure kind of the UTF-16 encoder (`to_utf16_iter::append`,
`unic.h` line 211): the "Out of UTF-16 range" exception. -/
inductive EncErr where
  | out_of_utf16_range : EncErr
deriving DecidableEq

/-- Embeds `to_utf16_iter::append` from `unic.h`: the units written through
the output iterator for one code point (`char16_t` casts taken modulo
`2 ^ 16`), or the out-of-range failure. -/
def to_utf16_append (cp : Nat) : Except EncErr (List Nat) :=
  if cp ≤ 0xFFFF then .ok [cp % 2 ^ 16]
  else if cp ≤ 0x10FFFF then
    .ok [(((cp - 0x10000) >>> 10) + 0xD800) % 2 ^ 16,
         (((cp - 0x10000) &&& 0x3FF) + 0xDC00) % 2 ^ 16]
  else .error .out_of_utf16_range

/-- Embeds the code-point overload of `to_utf16_size` from `unic.h` (lines
258–275); the error payload is the index of the out-of-range code point
(the loop's iterator position). -/
def to_utf16_size_cps : List Nat → Nat → Except Nat Nat
  | [], _ => .ok 0
  | cp :: rest, i =>
    if cp ≤ 0xFFFF then (to_utf16_size_cps rest (i + 1)).map (1 + ·)
    else if cp ≤ 0x10FFFF then (to_utf16_size_cps rest (i + 1)).map (2 + ·)
    else .error i

/-- Embeds the UTF-8 overload of `to_utf16_size` from `unic.h` (lines
283–293): the code-point counting loop driven by the `from_utf8_range`
iterator (dereference, count, advance).  Exceptions are collapsed to
`none`. -/
def to_utf16_size_u8 (l : List Nat) : Option Nat :=
  if h : l = [] then some 0
  else
    match deref l, ha : advance l with
    | .ok cp, .ok l' =>
      if cp ≤ 0xFFFF then (to_utf16_size_u8 l').map (1 + ·)
      else if cp ≤ 0x10FFFF then (to_utf16_size_u8 l').map (2 + ·)
      else none
    | _, _ => none
termination_by l.length
decreasing_by
  exact advance_shrinks h ha

/-- Embeds `to_utf16` over a UTF-8 range from `unic.h` (lines 302–307):
`std::ranges::copy` from the `from_utf8_range` iterator into `to_utf16_iter`
(dereference, append through the proxy assigner, advance), collecting all
UTF-16 units.  Exceptions are collapsed to `none`. -/
def to_utf16_u8 (l : List Nat) : Option (List Nat) :=
  if h : l = [] then some []
  else
    match deref l, ha : advance l with
    | .ok cp, .ok l' =>
      match to_utf16_append cp with
      | .ok us => (to_utf16_u8 l').map (us ++ ·)
      | .error _ => none
    | _, _ => none
termination_by l.length
decreasing_by
  exact advance_shrinks h ha

end Unic

/-- Reference definition (stated by the spec's round-trip property and claim
C7, not part of the repository): the standard minimal UTF-8 encoding of a
code point, written arithmetically. -/
def utf8Encode (cp : Nat) : List Nat :=
  if cp < 0x80 then [cp]
  else if cp < 0x800 then
    [0xC0 + cp / 64, 0x80 + cp % 64]
  else if cp < 0x10000 then
    [0xE0 + cp / 4096, 0x80 + (cp / 64) % 64, 0x80 + cp % 64]
  else
    [0xF0 + cp / 262144, 0x80 + (cp / 4096) % 64, 0x80 + (cp / 64) % 64, 0x80 + cp % 64]

/-- Definition following the words of claim C3 / spec §4.1: the claimed
common header-byte-to-trailing-count mapping, to be compared with the two
classifiers in the source. -/
def headerSpecTrailing (b : Nat) : Option Nat :=
  if b ≤ 0x7F then some 0
  else if b ≤ 0xBF then none
  else if b ≤ 0xDF then some 1
  else if b ≤ 0xEF then some 2
  else if b ≤ 0xF7 then some 3
  else none

deriving instance DecidableEq for Except

section ArithHelpers

/-- Mask by `0x3F` is reduction modulo 64. -/
theorem nat_and_63 (x : Nat) : x &&& 63 = x % 64 := by
  have h := Nat.and_pow_two_sub_one_eq_mod x 6
  norm_num at h
  exact h

/-- Mask by `0x1F` is reduction modulo 32. -/
theorem nat_and_31 (x : Nat) : x &&& 31 = x % 32 := by
  have h := Nat.and_pow_two_sub_one_eq_mod x 5
  norm_num at h
  exact h

/-- Mask by `0x0F` is reduction modulo 16. -/
theorem nat_and_15 (x : Nat) : x &&& 15 = x % 16 := by
  have h := Nat.and_pow_two_sub_one_eq_mod x 4
  norm_num at h
  exact h

/-- Mask by `0x07` is reduction modulo 8. -/
theorem nat_and_7 (x : Nat) : x &&& 7 = x % 8 := by
  have h := Nat.and_pow_two_sub_one_eq_mod x 3
  norm_num at h
  exact h

/-- Mask by `0x3FF` is reduction modulo 1024. -/
theorem nat_and_1023 (x : Nat) : x &&& 1023 = x % 1024 := by
  have h := Nat.and_pow_two_sub_one_eq_mod x 10
  norm_num at h
  exact h

/-- The decoders' fold `(a << 6) | m` is plain arithmetic when `m < 64`. -/
theorem fold_or (a m : Nat) (hm : m < 64) : (a <<< 6) ||| m = 64 * a + m := by
  have h := (Nat.mul_add_lt_is_or (show m < 2 ^ 6 from hm) a).symm
  norm_num at h
  rw [Nat.shiftLeft_eq, Nat.mul_comm a (2 ^ 6)]
  norm_num
  exact h

end ArithHelpers

namespace Cppunicode

set_option maxRecDepth 4000 in
/-- `utf8_header_byte` on an ASCII byte. -/
theorem utf8_header_byte_ascii : ∀ b, b < 128 → utf8_header_byte b = some (0, b) := by
  decide

set_option maxRecDepth 4000 in
/-- `utf8_header_byte` on a two-byte header. -/
theorem utf8_header_byte_two : ∀ b, b < 224 → 192 ≤ b → utf8_header_byte b = some (1, b % 32) := by
  decide

set_option maxRecDepth 4000 in
/-- `utf8_header_byte` on a three-byte header. -/
theorem utf8_header_byte_three : ∀ b, b < 240 → 224 ≤ b → utf8_header_byte b = some (2, b % 16) := by
  decide

set_option maxRecDepth 4000 in
/-- `utf8_header_byte` on a four-byte header. -/
theorem utf8_header_byte_four : ∀ b, b < 248 → 240 ≤ b → utf8_header_byte b = some (3, b % 8) := by
  decide

/-- One-step unfolding of `convert` on the empty range. -/
theorem convert_nil (w : Bool) : convert w [] = .ok 0 [] := by
  rw [convert.eq_def]

/-- One-step unfolding of `convert` on a nonempty range. -/
theorem convert_cons (w : Bool) (b : Nat) (rest : List Nat) :
    convert w (b :: rest) =
      (match utf8_header_byte b with
       | none => .fail
       | some (cnt, seed) =>
         if cnt > rest.length then .fail
         else
           match convertTrails cnt rest seed with
           | .oob => .oob
           | .bad => .fail
           | .ok cp => convertEmit w cp (convert w (rest.drop cnt))) := by
  rw [convert.eq_def]

/-- `convert` on an input that is one complete sequence: decode it, emit,
and finish with the empty-range base case. -/
theorem convert_single (w : Bool) (b : Nat) (rest : List Nat) (cnt seed cp : Nat)
    (h1 : utf8_header_byte b = some (cnt, seed))
    (h2 : cnt = rest.length)
    (h3 : convertTrails cnt rest seed = .ok cp) :
    convert w (b :: rest) = convertEmit w cp (.ok 0 []) := by
  subst h2
  rw [convert_cons, h1]
  simp only [gt_iff_lt, lt_self_iff_false, if_false, h3, List.drop_length, convert_nil]

/-- The trail-byte loop of `convert` cannot run out of bytes when the
truncation guard has passed. -/
theorem convertTrails_no_oob :
    ∀ (n : Nat) (l : List Nat) (cp : Nat), n ≤ l.length → convertTrails n l cp ≠ .oob := by
  intro n
  induction n with
  | zero => intro l cp _ h; simp [convertTrails] at h
  | succ n ih =>
    intro l cp hlen h
    match l with
    | [] => simp at hlen
    | b :: rest =>
      simp only [convertTrails] at h
      cases htb : utf8_trail_byte b cp with
      | none => rw [htb] at h; simp at h
      | some cp' =>
        rw [htb] at h
        exact ih rest cp' (by simpa using Nat.le_of_succ_le_succ hlen) h

end Cppunicode

namespace Unic

/-- `deref`'s trail loop reports only the illegal-trail kind. -/
theorem decodeTrails_err_kind :
    ∀ (l : List Nat) (n cp i p : Nat) (k : ErrKind),
      decodeTrails l n cp i = .error (p, k) → k = ErrKind.illegalTrail := by
  intro l
  induction l with
  | nil =>
    intro n cp i p k h
    match n with
    | 0 => simp [decodeTrails] at h
    | n + 1 =>
      simp only [decodeTrails, Except.error.injEq, Prod.mk.injEq] at h
      exact h.2.symm
  | cons b rest ih =>
    intro n cp i p k h
    match n with
    | 0 => simp [decodeTrails] at h
    | n + 1 =>
      simp only [decodeTrails] at h
      split at h
      · simp only [Except.error.injEq, Prod.mk.injEq] at h
        exact h.2.symm
      · exact ih n _ (i + 1) p k h

/-- One-step unfolding of `decodeAll` on the empty range. -/
theorem decodeAll_nil : decodeAll [] = some [] := by
  rw [decodeAll.eq_def]
  simp

/-- One-step unfolding of `decodeAll`: a successful dereference and advance
prepend the decoded code point. -/
theorem decodeAll_cons {l l' : List Nat} {cp : Nat} (hne : l ≠ [])
    (hd : deref l = .ok cp) (ha : advance l = .ok l') :
    decodeAll l = (decodeAll l').map (cp :: ·) := by
  rw [decodeAll.eq_def, dif_neg hne, hd, ha]

/-- One-step unfolding of `decodeAll`: a failed dereference fails the whole
pass. -/
theorem decodeAll_err {l : List Nat} {e : Nat × ErrKind} (hne : l ≠ [])
    (hd : deref l = .error e) : decodeAll l = none := by
  rw [decodeAll.eq_def, dif_neg hne, hd]

/-- When dereference succeeds, so does advancing (its validation is a subset
of the dereference's). -/
theorem deref_ok_advance {l : List Nat} {cp : Nat} (hd : deref l = .ok cp) :
    ∃ l', advance l = .ok l' := by
  match l with
  | [] => simp [deref] at hd
  | b :: rest =>
    cases hc : compute_byte_count b with
    | none => simp [deref, hc] at hd
    | some cnt =>
      simp only [deref, hc] at hd
      simp only [advance, hc]
      by_cases hg : cnt > rest.length + 1
      · rw [if_pos hg] at hd; simp at hd
      · rw [if_neg hg]
        exact ⟨_, rfl⟩

/-- Inversion of a successful `decodeAll` on a nonempty range. -/
theorem decodeAll_some_cons {l : List Nat} {cps : List Nat} (hne : l ≠ [])
    (h : decodeAll l = some cps) :
    ∃ cp l' cps', deref l = .ok cp ∧ advance l = .ok l' ∧ decodeAll l' = some cps'
      ∧ cps = cp :: cps' := by
  cases hd : deref l with
  | error e => rw [decodeAll_err hne hd] at h; simp at h
  | ok cp =>
    obtain ⟨l', ha⟩ := deref_ok_advance hd
    rw [decodeAll_cons hne hd ha] at h
    cases hrec : decodeAll l' with
    | none => rw [hrec] at h; simp at h
    | some cps' =>
      rw [hrec] at h
      simp only [Option.map_some', Option.some.injEq] at h
      exact ⟨cp, l', cps', rfl, ha, hrec, h.symm⟩

/-- One-step unfolding of `to_utf16_u8` on the empty range. -/
theorem to_utf16_u8_nil : to_utf16_u8 [] = some [] := by
  rw [to_utf16_u8.eq_def]
  simp

/-- One-step unfolding of `to_utf16_u8` when decode and append succeed. -/
theorem to_utf16_u8_cons {l l' us : List Nat} {cp : Nat} (hne : l ≠ [])
    (hd : deref l = .ok cp) (ha : advance l = .ok l')
    (happ : to_utf16_append cp = .ok us) :
    to_utf16_u8 l = (to_utf16_u8 l').map (us ++ ·) := by
  rw [to_utf16_u8.eq_def, dif_neg hne, hd, ha]
  simp only [happ]

/-- One-step unfolding of `to_utf16_size_u8` on the empty range. -/
theorem to_utf16_size_u8_nil : to_utf16_size_u8 [] = some 0 := by
  rw [to_utf16_size_u8.eq_def]
  simp

/-- One-step unfolding of `to_utf16_size_u8` for a BMP code point. -/
theorem to_utf16_size_u8_cons_one {l l' : List Nat} {cp : Nat} (hne : l ≠ [])
    (hd : deref l = .ok cp) (ha : advance l = .ok l') (hcp : cp ≤ 0xFFFF) :
    to_utf16_size_u8 l = (to_utf16_size_u8 l').map (1 + ·) := by
  rw [to_utf16_size_u8.eq_def, dif_neg hne, hd, ha]
  simp only [if_pos hcp]

/-- One-step unfolding of `to_utf16_size_u8` for a supplementary code
point. -/
theorem to_utf16_size_u8_cons_two {l l' : List Nat} {cp : Nat} (hne : l ≠ [])
    (hd : deref l = .ok cp) (ha : advance l = .ok l')
    (hcp1 : ¬ cp ≤ 0xFFFF) (hcp2 : cp ≤ 0x10FFFF) :
    to_utf16_size_u8 l = (to_utf16_size_u8 l').map (2 + ·) := by
  rw [to_utf16_size_u8.eq_def, dif_neg hne, hd, ha]
  simp only [if_neg hcp1, if_pos hcp2]

/-- `to_utf16_append` writes one unit for a BMP code point. -/
theorem to_utf16_append_one {cp : Nat} (h : cp ≤ 0xFFFF) :
    to_utf16_append cp = .ok [cp % 2 ^ 16] := by
  rw [to_utf16_append, if_pos h]

/-- `to_utf16_append` writes two units for a supplementary code point. -/
theorem to_utf16_append_two {cp : Nat} (h1 : ¬ cp ≤ 0xFFFF) (h2 : cp ≤ 0x10FFFF) :
    to_utf16_append cp =
      .ok [(((cp - 0x10000) >>> 10) + 0xD800) % 2 ^ 16,
           (((cp - 0x10000) &&& 0x3FF) + 0xDC00) % 2 ^ 16] := by
  rw [to_utf16_append, if_neg h1, if_pos h2]

set_option maxRecDepth 4000 in
/-- `compute_byte_count` on an ASCII byte. -/
theorem compute_byte_count_ascii : ∀ b, b < 128 → compute_byte_count b = some 1 := by
  decide

set_option maxRecDepth 4000 in
/-- `compute_byte_count` on a two-byte header. -/
theorem compute_byte_count_two : ∀ b, b < 224 → 192 ≤ b → compute_byte_count b = some 2 := by
  decide

set_option maxRecDepth 4000 in
/-- `compute_byte_count` on a three-byte header. -/
theorem compute_byte_count_three : ∀ b, b < 240 → 224 ≤ b → compute_byte_count b = some 3 := by
  decide

set_option maxRecDepth 4000 in
/-- `compute_byte_count` on a four-byte header. -/
theorem compute_byte_count_four : ∀ b, b < 248 → 240 ≤ b → compute_byte_count b = some 4 := by
  decide

end Unic

/-- Literal shift: the two-byte seed mask. -/
theorem shr_255_3 : (255 : Nat) >>> 3 = 31 := by decide

/-- Literal shift: the three-byte seed mask. -/
theorem shr_255_4 : (255 : Nat) >>> 4 = 15 := by decide

/-- Literal shift: the four-byte seed mask. -/
theorem shr_255_5 : (255 : Nat) >>> 5 = 7 := by decide

namespace Unic

/-- Round-trip through `deref` for a one-byte (ASCII) encoding. -/
theorem deref_rt1 (cp : Nat) (h : cp < 0x80) : deref [cp] = .ok cp := by
  simp [deref, compute_byte_count_ascii cp h]

/-- Round-trip through `deref` for a two-byte encoding. -/
theorem deref_rt2 (cp : Nat) (h1 : 0x80 ≤ cp) (h2 : cp < 0x800) :
    deref [0xC0 + cp / 64, 0x80 + cp % 64] = .ok cp := by
  have hc := compute_byte_count_two (0xC0 + cp / 64) (by omega) (by omega)
  simp only [deref, hc]
  norm_num
  simp only [decodeTrails]
  rw [if_neg (by omega : ¬(128 + cp % 64 < 128 ∨ 191 < 128 + cp % 64))]
  simp only [shr_255_3, nat_and_63, nat_and_31]
  have f1 := fold_or ((192 + cp / 64) % 32) ((128 + cp % 64) % 64) (by omega)
  rw [f1]
  congr 1
  omega

/-- Round-trip through `deref` for a three-byte encoding. -/
theorem deref_rt3 (cp : Nat) (h1 : 0x800 ≤ cp) (h2 : cp < 0x10000) :
    deref [0xE0 + cp / 4096, 0x80 + (cp / 64) % 64, 0x80 + cp % 64] = .ok cp := by
  have hc := compute_byte_count_three (0xE0 + cp / 4096) (by omega) (by omega)
  simp only [deref, hc]
  norm_num
  simp only [decodeTrails]
  rw [if_neg (by omega : ¬(128 + (cp / 64) % 64 < 128 ∨ 191 < 128 + (cp / 64) % 64))]
  rw [if_neg (by omega : ¬(128 + cp % 64 < 128 ∨ 191 < 128 + cp % 64))]
  simp only [shr_255_4, nat_and_63, nat_and_15]
  have f1 := fold_or ((224 + cp / 4096) % 16) ((128 + (cp / 64) % 64) % 64) (by omega)
  rw [f1]
  have f2 := fold_or ((64 * ((224 + cp / 4096) % 16) + (128 + (cp / 64) % 64) % 64) % 2 ^ 32)
    ((128 + cp % 64) % 64) (by omega)
  rw [f2]
  congr 1
  omega

/-- Round-trip through `deref` for a four-byte encoding. -/
theorem deref_rt4 (cp : Nat) (h1 : 0x10000 ≤ cp) (h2 : cp ≤ 0x10FFFF) :
    deref [0xF0 + cp / 262144, 0x80 + (cp / 4096) % 64, 0x80 + (cp / 64) % 64,
           0x80 + cp % 64] = .ok cp := by
  have hc := compute_byte_count_four (0xF0 + cp / 262144) (by omega) (by omega)
  simp only [deref, hc]
  norm_num
  simp only [decodeTrails]
  rw [if_neg (by omega : ¬(128 + (cp / 4096) % 64 < 128 ∨ 191 < 128 + (cp / 4096) % 64))]
  rw [if_neg (by omega : ¬(128 + (cp / 64) % 64 < 128 ∨ 191 < 128 + (cp / 64) % 64))]
  rw [if_neg (by omega : ¬(128 + cp % 64 < 128 ∨ 191 < 128 + cp % 64))]
  simp only [shr_255_5, nat_and_63, nat_and_7]
  have f1 := fold_or ((240 + cp / 262144) % 8) ((128 + (cp / 4096) % 64) % 64) (by omega)
  rw [f1]
  have f2 := fold_or ((64 * ((240 + cp / 262144) % 8) + (128 + (cp / 4096) % 64) % 64) % 2 ^ 32)
    ((128 + (cp / 64) % 64) % 64) (by omega)
  rw [f2]
  have f3 := fold_or
    ((64 * ((64 * ((240 + cp / 262144) % 8) + (128 + (cp / 4096) % 64) % 64) % 2 ^ 32)
        + (128 + (cp / 64) % 64) % 64) % 2 ^ 32)
    ((128 + cp % 64) % 64) (by omega)
  rw [f3]
  congr 1
  omega

end Unic

namespace Cppunicode

/-- The trail loop of `convert` with no trailing bytes left to read. -/
theorem convertTrails_zero (l : List Nat) (cp : Nat) : convertTrails 0 l cp = .ok cp := rfl

/-- One step of the trail loop of `convert` on an in-range trailing byte. -/
theorem convertTrails_cons (n : Nat) (b : Nat) (rest : List Nat) (cp : Nat)
    (hb1 : 0x80 ≤ b) (hb2 : b ≤ 0xBF) :
    convertTrails (n + 1) (b :: rest) cp
      = convertTrails n rest (((cp <<< 6) ||| (b &&& 0x3F)) % 2 ^ 32) := by
  simp only [convertTrails, utf8_trail_byte]
  rw [if_neg (by omega : ¬(b < 0x80 ∨ 0xBF < b))]

/-- Round-trip through `convert`'s decode step for a one-byte encoding. -/
theorem convertDecode_rt1 (cp : Nat) (h : cp < 0x80) : convertDecode [cp] = some cp := by
  simp only [convertDecode, utf8_header_byte_ascii cp h]
  norm_num
  rw [convertTrails_zero]

/-- Round-trip through `convert`'s decode step for a two-byte encoding. -/
theorem convertDecode_rt2 (cp : Nat) (h1 : 0x80 ≤ cp) (h2 : cp < 0x800) :
    convertDecode [0xC0 + cp / 64, 0x80 + cp % 64] = some cp := by
  have hh := utf8_header_byte_two (0xC0 + cp / 64) (by omega) (by omega)
  simp only [convertDecode, hh]
  norm_num
  rw [convertTrails_cons 0 (0x80 + cp % 64) [] _ (by omega) (by omega)]
  rw [convertTrails_zero]
  simp only [nat_and_63]
  rw [fold_or ((192 + cp / 64) % 32) ((128 + cp % 64) % 64) (by omega)]
  congr 1
  omega

/-- Round-trip through `convert`'s decode step for a three-byte encoding. -/
theorem convertDecode_rt3 (cp : Nat) (h1 : 0x800 ≤ cp) (h2 : cp < 0x10000) :
    convertDecode [0xE0 + cp / 4096, 0x80 + (cp / 64) % 64, 0x80 + cp % 64] = some cp := by
  have hh := utf8_header_byte_three (0xE0 + cp / 4096) (by omega) (by omega)
  simp only [convertDecode, hh]
  norm_num
  rw [convertTrails_cons 1 (0x80 + (cp / 64) % 64) [0x80 + cp % 64] _ (by omega) (by omega)]
  rw [convertTrails_cons 0 (0x80 + cp % 64) [] _ (by omega) (by omega)]
  rw [convertTrails_zero]
  simp only [nat_and_63]
  have f1 := fold_or ((224 + cp / 4096) % 16) ((128 + (cp / 64) % 64) % 64) (by omega)
  rw [f1]
  have f2 := fold_or ((64 * ((224 + cp / 4096) % 16) + (128 + (cp / 64) % 64) % 64) % 2 ^ 32)
    ((128 + cp % 64) % 64) (by omega)
  rw [f2]
  congr 1
  omega

/-- Round-trip through `convert`'s decode step for a four-byte encoding. -/
theorem convertDecode_rt4 (cp : Nat) (h1 : 0x10000 ≤ cp) (h2 : cp ≤ 0x10FFFF) :
    convertDecode [0xF0 + cp / 262144, 0x80 + (cp / 4096) % 64, 0x80 + (cp / 64) % 64,
                   0x80 + cp % 64] = some cp := by
  have hh := utf8_header_byte_four (0xF0 + cp / 262144) (by omega) (by omega)
  simp only [convertDecode, hh]
  norm_num
  rw [convertTrails_cons 2 (0x80 + (cp / 4096) % 64) [0x80 + (cp / 64) % 64, 0x80 + cp % 64] _
    (by omega) (by omega)]
  rw [convertTrails_cons 1 (0x80 + (cp / 64) % 64) [0x80 + cp % 64] _ (by omega) (by omega)]
  rw [convertTrails_cons 0 (0x80 + cp % 64) [] _ (by omega) (by omega)]
  rw [convertTrails_zero]
  simp only [nat_and_63]
  have f1 := fold_or ((240 + cp / 262144) % 8) ((128 + (cp / 4096) % 64) % 64) (by omega)
  rw [f1]
  have f2 := fold_or ((64 * ((240 + cp / 262144) % 8) + (128 + (cp / 4096) % 64) % 64) % 2 ^ 32)
    ((128 + (cp / 64) % 64) % 64) (by omega)
  rw [f2]
  have f3 := fold_or
    ((64 * ((64 * ((240 + cp / 262144) % 8) + (128 + (cp / 4096) % 64) % 64) % 2 ^ 32)
        + (128 + (cp / 64) % 64) % 64) % 2 ^ 32)
    ((128 + cp % 64) % 64) (by omega)
  rw [f3]
  congr 1
  omega

end Cppunicode

namespace Cppunicode

/-- `convertEmit` on a successful tail: it emits one unit below the (strict)
`0xFFFF` bound and two units otherwise, in write mode only, counting the same
in both modes. -/
theorem convertEmit_ok (cp n : Nat) (out : List Nat) :
    ∃ us : List Nat, us.length = (if cp < 0xFFFF then 1 else 2)
      ∧ convertEmit true cp (.ok n out) = .ok (us.length + n) (us ++ out)
      ∧ convertEmit false cp (.ok n out) = .ok (us.length + n) out := by
  by_cases hcp : cp < 0xFFFF
  · exact ⟨[cp % 2 ^ 16], by simp [hcp], by simp [convertEmit, hcp], by simp [convertEmit, hcp]⟩
  · exact ⟨[((((cp + 2 ^ 32 - 0x10000) % 2 ^ 32) >>> 10 + 0xD800) % 2 ^ 16),
           ((((cp + 2 ^ 32 - 0x10000) % 2 ^ 32) &&& 0x3FF) + 0xDC00) % 2 ^ 16],
      by simp [hcp], by simp [convertEmit, hcp], by simp [convertEmit, hcp]⟩

/-- `convertEmit` passes a failing tail through unchanged. -/
theorem convertEmit_fail (w : Bool) (cp : Nat) : convertEmit w cp .fail = .fail := rfl

/-- `convert` on a header classified as invalid. -/
theorem convert_hdr_fail (w : Bool) (b : Nat) (rest : List Nat)
    (h : utf8_header_byte b = none) : convert w (b :: rest) = .fail := by
  rw [convert_cons, h]

/-- `convert` on a sequence longer than the remaining input. -/
theorem convert_len_fail (w : Bool) (b : Nat) (rest : List Nat) (cnt seed : Nat)
    (h1 : utf8_header_byte b = some (cnt, seed)) (h2 : cnt > rest.length) :
    convert w (b :: rest) = .fail := by
  rw [convert_cons, h1]
  simp only [if_pos h2]

/-- `convert` on a sequence with an illegal trailing byte. -/
theorem convert_trail_fail (w : Bool) (b : Nat) (rest : List Nat) (cnt seed : Nat)
    (h1 : utf8_header_byte b = some (cnt, seed)) (h2 : ¬ cnt > rest.length)
    (h3 : convertTrails cnt rest seed = .bad) : convert w (b :: rest) = .fail := by
  rw [convert_cons, h1]
  simp only [if_neg h2, h3]

/-- `convert` on a successfully decoded leading sequence: emit and continue
past the consumed bytes. -/
theorem convert_step (w : Bool) (b : Nat) (rest : List Nat) (cnt seed cp : Nat)
    (h1 : utf8_header_byte b = some (cnt, seed)) (h2 : ¬ cnt > rest.length)
    (h3 : convertTrails cnt rest seed = .ok cp) :
    convert w (b :: rest) = convertEmit w cp (convert w (rest.drop cnt)) := by
  rw [convert_cons, h1]
  simp only [if_neg h2, h3]

/-- Dry-run and fill mode of `convert` agree step by step: on every input
either both fail or both return the same count, with the fill-mode output
having exactly that many units. -/
theorem convert_modes : ∀ (fuel : Nat) (l : List Nat), l.length ≤ fuel →
    (convert false l = .fail ∧ convert true l = .fail)
    ∨ (∃ n out, convert false l = .ok n [] ∧ convert true l = .ok n out
        ∧ out.length = n) := by
  intro fuel
  induction fuel with
  | zero =>
    intro l hl
    have hnil : l = [] := by cases l <;> simp_all
    subst hnil
    exact Or.inr ⟨0, [], convert_nil false, convert_nil true, rfl⟩
  | succ fuel ih =>
    intro l hl
    match l with
    | [] => exact Or.inr ⟨0, [], convert_nil false, convert_nil true, rfl⟩
    | b :: rest =>
      cases hh : utf8_header_byte b with
      | none => exact Or.inl ⟨convert_hdr_fail false b rest hh, convert_hdr_fail true b rest hh⟩
      | some cs =>
        obtain ⟨cnt, seed⟩ := cs
        by_cases hg : cnt > rest.length
        · exact Or.inl ⟨convert_len_fail false b rest cnt seed hh hg,
            convert_len_fail true b rest cnt seed hh hg⟩
        · cases htr : convertTrails cnt rest seed with
          | oob => exact absurd htr (convertTrails_no_oob cnt rest seed (by omega))
          | bad =>
            exact Or.inl ⟨convert_trail_fail false b rest cnt seed hh hg htr,
              convert_trail_fail true b rest cnt seed hh hg htr⟩
          | ok cp =>
            have hlen : (rest.drop cnt).length ≤ fuel := by
              simp only [List.length_drop]
              simp only [List.length_cons] at hl
              omega
            rw [convert_step false b rest cnt seed cp hh hg htr,
              convert_step true b rest cnt seed cp hh hg htr]
            rcases ih (rest.drop cnt) hlen with ⟨hf, ht⟩ | ⟨n, out, hf, ht, hout⟩
            · rw [hf, ht]
              exact Or.inl ⟨convertEmit_fail false cp, convertEmit_fail true cp⟩
            · rw [hf, ht]
              obtain ⟨usT, husT, hemT, _⟩ := convertEmit_ok cp n out
              obtain ⟨usF, husF, _, hemF⟩ := convertEmit_ok cp n []
              refine Or.inr ⟨usT.length + n, usT ++ out, ?_, ?_, ?_⟩
              · rw [hemF]
                have husFT : usF.length = usT.length := by rw [husF, husT]
                rw [husFT]
              · exact hemT
              · simp [List.length_append, hout]

end Cppunicode

namespace Unic

/-- The inductive core of the size-agreement property: on any input accepted
by the decoder whose code points are all encodable, the encode pass and the
size estimator agree. -/
theorem size_agree_main : ∀ (fuel : Nat) (l : List Nat), l.length ≤ fuel →
    ∀ cps, decodeAll l = some cps → (∀ cp ∈ cps, cp ≤ 0x10FFFF) →
    ∃ out, to_utf16_u8 l = some out ∧ to_utf16_size_u8 l = some out.length := by
  intro fuel
  induction fuel with
  | zero =>
    intro l hl cps _ _
    have hnil : l = [] := by cases l <;> simp_all
    subst hnil
    exact ⟨[], to_utf16_u8_nil, by rw [to_utf16_size_u8_nil]; rfl⟩
  | succ fuel ih =>
    intro l hl cps hdec hbound
    by_cases hne : l = []
    · subst hne
      exact ⟨[], to_utf16_u8_nil, by rw [to_utf16_size_u8_nil]; rfl⟩
    · obtain ⟨cp, l', cps', hd, ha, hrec, hcps⟩ := decodeAll_some_cons hne hdec
      have hlen : l'.length ≤ fuel := by
        have := advance_shrinks hne ha
        omega
      have hbound' : ∀ c ∈ cps', c ≤ 0x10FFFF := by
        intro c hc
        exact hbound c (by rw [hcps]; exact List.mem_cons_of_mem _ hc)
      have hcpb : cp ≤ 0x10FFFF := hbound cp (by rw [hcps]; exact List.mem_cons_self _ _)
      obtain ⟨out', hu', hs'⟩ := ih l' hlen cps' hrec hbound'
      by_cases hcp : cp ≤ 0xFFFF
      · refine ⟨[cp % 2 ^ 16] ++ out', ?_, ?_⟩
        · rw [to_utf16_u8_cons hne hd ha (to_utf16_append_one hcp), hu']
          rfl
        · rw [to_utf16_size_u8_cons_one hne hd ha hcp, hs']
          simp only [Option.map_some', Option.some.injEq, List.length_append, List.length_cons,
            List.length_nil]
      · refine ⟨[(((cp - 0x10000) >>> 10) + 0xD800) % 2 ^ 16,
                 (((cp - 0x10000) &&& 0x3FF) + 0xDC00) % 2 ^ 16] ++ out', ?_, ?_⟩
        · rw [to_utf16_u8_cons hne hd ha (to_utf16_append_two hcp hcpb), hu']
          rfl
        · rw [to_utf16_size_u8_cons_two hne hd ha hcp hcpb, hs']
          simp only [Option.map_some', Option.some.injEq, List.length_append, List.length_cons,
            List.length_nil]

end Unic

open Cppunicode Unic

/-- Claim C1 (code bug): the claim says every code point `cp ≤ 0xFFFF` —
in particular `cp = 0xFFFF` — yields exactly one UTF-16 unit equal to `cp`
on every path, convert included.  The `unic` paths do exactly that, but
`convert` compares with `code_point < 0xFFFF` (strict), so the input
`EF BF BF` (code point `U+FFFF`) is counted as two units and, in fill mode,
written as the bogus pair `(0xD7FF, 0xDFFF)` produced by the unsigned
wraparound of `code_point -= 0x10000`. -/
theorem C1_bmp_one_unit_eval :
    convert true [0xEF, 0xBF, 0xBF] = .ok 2 [0xD7FF, 0xDFFF]
    ∧ convert false [0xEF, 0xBF, 0xBF] = .ok 2 []
    ∧ deref [0xEF, 0xBF, 0xBF] = .ok 0xFFFF
    ∧ to_utf16_append 0xFFFF = .ok [0xFFFF]
    ∧ to_utf16_size_cps [0xFFFF] 0 = .ok 1 := by
  refine ⟨?_, ?_, by decide, by decide, by decide⟩
  · rw [convert_single true 0xEF [0xBF, 0xBF] 2 15 0xFFFF (by decide) rfl (by decide)]
    decide
  · rw [convert_single false 0xEF [0xBF, 0xBF] 2 15 0xFFFF (by decide) rfl (by decide)]
    decide

/-- Claim C2 (code bug): the claim says every operation rejects a decoded
code point above `0x10FFFF`; the `unic` encoder and size estimator do raise
the out-of-range failure, but `convert` has no range check at all: for
`F4 90 80 80` (decoding to `0x110000`) it returns success `2` and in fill
mode writes the invalid units `(0xDC00, 0xDC00)` instead of the `-1`
sentinel. -/
theorem C2_out_of_range_eval :
    convert true [0xF4, 0x90, 0x80, 0x80] = .ok 2 [0xDC00, 0xDC00]
    ∧ convert false [0xF4, 0x90, 0x80, 0x80] = .ok 2 []
    ∧ deref [0xF4, 0x90, 0x80, 0x80] = .ok 0x110000
    ∧ to_utf16_append 0x110000 = .error .out_of_utf16_range
    ∧ to_utf16_size_cps [0x110000] 0 = .error 0 := by
  refine ⟨?_, ?_, by decide, by decide, by decide⟩
  · rw [convert_single true 0xF4 [0x90, 0x80, 0x80] 3 4 0x110000 (by decide) rfl (by decide)]
    decide
  · rw [convert_single false 0xF4 [0x90, 0x80, 0x80] 3 4 0x110000 (by decide) rfl (by decide)]
    decide

/-- Claim C3, counterexample: the two classifiers do not implement the same
mapping, and the lazy iterator's classifier does not report every byte
`≥ 0xF8` as invalid — for the header `0xF8`, `convert`'s classifier fails
but `compute_byte_count` accepts it as a 5-byte sequence. -/
theorem C3_counterexample :
    utf8_header_byte 0xF8 = none ∧ compute_byte_count 0xF8 = some 5 :=
  ⟨by decide, by decide⟩

set_option maxRecDepth 40000 in
/-- Claim C3 as amended: `convert`'s classifier implements exactly the
claimed trailing-count mapping (invalid at and above `0xF8`); the lazy
iterator's classifier agrees with it on every byte up to `0xF7` (returning
the total count, trailing + 1) but additionally accepts `0xF8`–`0xFD` as
legacy five- and six-byte forms with total count equal to the leading-ones count,
rejecting only `0x80`–`0xBF` and `0xFE`–`0xFF`. -/
theorem C3_amended : ∀ b : Nat, b < 256 →
    ((utf8_header_byte b).map Prod.fst = headerSpecTrailing b)
    ∧ (b ≤ 0xF7 → compute_byte_count b = (headerSpecTrailing b).map (· + 1))
    ∧ (0xF8 ≤ b → b ≤ 0xFD → compute_byte_count b = some (countl_one b))
    ∧ (0xFE ≤ b → compute_byte_count b = none) := by
  decide

/-- Witness for `C3_amended`, instantiated at the header byte `0xF8`. -/
theorem C3_amended_witness :
    (0xF8 : Nat) < 256
    ∧ (((utf8_header_byte 0xF8).map Prod.fst = headerSpecTrailing 0xF8)
       ∧ ((0xF8 : Nat) ≤ 0xF7 → compute_byte_count 0xF8 = (headerSpecTrailing 0xF8).map (· + 1))
       ∧ ((0xF8 : Nat) ≤ 0xF8 → (0xF8 : Nat) ≤ 0xFD →
            compute_byte_count 0xF8 = some (countl_one 0xF8))
       ∧ ((0xFE : Nat) ≤ 0xF8 → compute_byte_count 0xF8 = none)) :=
  ⟨by decide, C3_amended 0xF8 (by decide)⟩

/-- Claim C4, counterexample: on `C2 FF` — whose only defect is the trailing
byte — dereferencing fails but advancing succeeds, so advancing does not
perform the same validation as dereferencing. -/
theorem C4_counterexample :
    deref [0xC2, 0xFF] = .error (1, ErrKind.illegalTrail)
    ∧ advance [0xC2, 0xFF] = .ok [] :=
  ⟨by decide, by decide⟩

/-- Claim C4 as amended: advancing re-runs only the header classification
and length guard.  It fails exactly when dereferencing fails with the
header/length kind, at the same position; on inputs whose only defect is a
bad trailing byte, dereferencing fails but advancing succeeds; and a
successful advance moves the cursor forward by exactly the classifier's
total byte count. -/
theorem C4_amended (l : List Nat) :
    (∀ e, advance l = .error e ↔ (deref l = .error e ∧ e.2 = ErrKind.lengthHeader))
    ∧ (∀ l', advance l = .ok l' →
        ∃ b rest cnt, l = b :: rest ∧ compute_byte_count b = some cnt ∧ 1 ≤ cnt
          ∧ cnt ≤ rest.length + 1 ∧ l' = (b :: rest).drop cnt) := by
  match l with
  | [] =>
    constructor
    · rintro ⟨p, k⟩
      constructor
      · intro h
        simp only [advance, Except.error.injEq, Prod.mk.injEq] at h
        obtain ⟨h1, h2⟩ := h
        subst h1; subst h2
        exact ⟨by simp [deref], rfl⟩
      · rintro ⟨h1, _⟩
        simp only [deref, Except.error.injEq] at h1
        simp only [advance, Except.error.injEq]
        exact h1
    · intro l' h
      simp only [advance] at h
      exact absurd h (by simp)
  | b :: rest =>
    cases hc : compute_byte_count b with
    | none =>
      constructor
      · rintro ⟨p, k⟩
        constructor
        · intro h
          simp only [advance, hc, Except.error.injEq, Prod.mk.injEq] at h
          obtain ⟨h1, h2⟩ := h
          subst h1; subst h2
          exact ⟨by simp [deref, hc], rfl⟩
        · rintro ⟨h1, _⟩
          simp only [deref, hc, Except.error.injEq] at h1
          simp only [advance, hc, Except.error.injEq]
          exact h1
      · intro l' h
        simp only [advance, hc] at h
        exact absurd h (by simp)
    | some cnt =>
      by_cases hg : cnt > rest.length + 1
      · constructor
        · rintro ⟨p, k⟩
          constructor
          · intro h
            simp only [advance, hc, if_pos hg, Except.error.injEq, Prod.mk.injEq] at h
            obtain ⟨h1, h2⟩ := h
            subst h1; subst h2
            exact ⟨by simp [deref, hc, if_pos hg], rfl⟩
          · rintro ⟨h1, _⟩
            simp only [deref, hc, if_pos hg, Except.error.injEq] at h1
            simp only [advance, hc, if_pos hg, Except.error.injEq]
            exact h1
        · intro l' h
          simp only [advance, hc, if_pos hg] at h
          exact absurd h (by simp)
      · constructor
        · rintro ⟨p, k⟩
          constructor
          · intro h
            simp only [advance, hc, if_neg hg] at h
            exact absurd h (by simp)
          · rintro ⟨h1, h2⟩
            simp only [deref, hc, if_neg hg] at h1
            by_cases h1c : cnt = 1
            · rw [if_pos h1c] at h1
              exact absurd h1 (by simp)
            · rw [if_neg h1c] at h1
              have hk := decodeTrails_err_kind rest (cnt - 1) _ 1 p k h1
              simp only [hk] at h2
              exact absurd h2 (by simp)
        · intro l' h
          simp only [advance, hc, if_neg hg, Except.ok.injEq] at h
          exact ⟨b, rest, cnt, rfl, hc, compute_byte_count_pos hc, by omega, h.symm⟩

/-- Witness for `C4_amended`: on `C2 80`, advancing succeeds and moves the
cursor by the full two-byte sequence. -/
theorem C4_amended_witness :
    ∃ b rest cnt, ([0xC2, 0x80] : List Nat) = b :: rest
      ∧ compute_byte_count b = some cnt ∧ 1 ≤ cnt
      ∧ cnt ≤ rest.length + 1 ∧ ([] : List Nat) = (b :: rest).drop cnt :=
  (C4_amended [0xC2, 0x80]).2 [] (by decide)

/-- Claim C5 (confirmed): dry-run and fill mode of `convert` fail on exactly
the same inputs, and on success the dry-run count equals the fill-mode
count, which equals the number of units written. -/
theorem C5_dry_fill_agree (l : List Nat) :
    (convert true l = .fail ↔ convert false l = .fail)
    ∧ (∀ n out, convert true l = .ok n out → out.length = n ∧ convert false l = .ok n [])
    ∧ (∀ n out, convert false l = .ok n out →
        out = [] ∧ ∃ outw, convert true l = .ok n outw ∧ outw.length = n) := by
  rcases convert_modes l.length l le_rfl with ⟨hf, ht⟩ | ⟨n, out, hf, ht, hout⟩
  · refine ⟨by rw [hf, ht], ?_, ?_⟩
    · intro n out h
      rw [ht] at h
      exact absurd h (by simp)
    · intro n out h
      rw [hf] at h
      exact absurd h (by simp)
  · refine ⟨?_, ?_, ?_⟩
    · rw [hf, ht]
      constructor <;> intro h <;> exact absurd h (by simp)
    · intro n' out' h
      rw [ht] at h
      simp only [ConvResult.ok.injEq] at h
      obtain ⟨h1, h2⟩ := h
      subst h1; subst h2
      exact ⟨hout, hf⟩
    · intro n' out' h
      rw [hf] at h
      simp only [ConvResult.ok.injEq] at h
      obtain ⟨h1, h2⟩ := h
      subst h1
      exact ⟨h2.symm, out, ht, hout⟩

/-- Witness for `C5_dry_fill_agree` at the one-byte input `41`. -/
theorem C5_witness :
    ([0x41] : List Nat).length = 1 ∧ convert false [0x41] = .ok 1 [] :=
  (C5_dry_fill_agree [0x41]).2.1 1 [0x41]
    (by rw [convert_single true 0x41 [] 0 0x41 0x41 (by decide) rfl (by decide)]; decide)

/-- Claim C6 (confirmed): on any input the decoder accepts whose code points
are all UTF-16-encodable, the UTF-8 overload of `to_utf16_size` returns
exactly the number of units `to_utf16` writes to its sink. -/
theorem C6_size_agreement (l cps : List Nat) (h1 : decodeAll l = some cps)
    (h2 : ∀ cp ∈ cps, cp ≤ 0x10FFFF) :
    ∃ out, to_utf16_u8 l = some out ∧ to_utf16_size_u8 l = some out.length :=
  size_agree_main l.length l le_rfl cps h1 h2

/-- Witness for `C6_size_agreement` on `41 F0 90 80 80`
(`U+0041 U+10000`). -/
theorem C6_witness :
    decodeAll [0x41, 0xF0, 0x90, 0x80, 0x80] = some [0x41, 0x10000]
    ∧ (∀ cp ∈ ([0x41, 0x10000] : List Nat), cp ≤ 0x10FFFF)
    ∧ ∃ out, to_utf16_u8 [0x41, 0xF0, 0x90, 0x80, 0x80] = some out
        ∧ to_utf16_size_u8 [0x41, 0xF0, 0x90, 0x80, 0x80] = some out.length := by
  have hdec : decodeAll [0x41, 0xF0, 0x90, 0x80, 0x80] = some [0x41, 0x10000] := by
    rw [decodeAll_cons (by simp)
        (show deref [0x41, 0xF0, 0x90, 0x80, 0x80] = .ok 0x41 by decide)
        (show advance [0x41, 0xF0, 0x90, 0x80, 0x80] = .ok [0xF0, 0x90, 0x80, 0x80] by decide)]
    rw [decodeAll_cons (by simp)
        (show deref [0xF0, 0x90, 0x80, 0x80] = .ok 0x10000 by decide)
        (show advance [0xF0, 0x90, 0x80, 0x80] = .ok [] by decide)]
    rw [decodeAll_nil]
    rfl
  exact ⟨hdec, by decide, C6_size_agreement _ _ hdec (by decide)⟩

/-- Claim C7 (confirmed): every code point in `[0, 0x10FFFF]` outside the
surrogate range survives a round trip through the minimal UTF-8 encoding
followed by either decoder (the lazy iterator's dereference, or the decode
step of `convert`). -/
theorem C7_roundtrip (cp : Nat) (h : cp ≤ 0x10FFFF)
    (hs : cp < 0xD800 ∨ 0xDFFF < cp) :
    deref (utf8Encode cp) = .ok cp ∧ convertDecode (utf8Encode cp) = some cp := by
  by_cases c1 : cp < 0x80
  · simp only [utf8Encode, if_pos c1]
    exact ⟨deref_rt1 cp c1, convertDecode_rt1 cp c1⟩
  · by_cases c2 : cp < 0x800
    · simp only [utf8Encode, if_neg c1, if_pos c2]
      exact ⟨deref_rt2 cp (by omega) c2, convertDecode_rt2 cp (by omega) c2⟩
    · by_cases c3 : cp < 0x10000
      · simp only [utf8Encode, if_neg c1, if_neg c2, if_pos c3]
        exact ⟨deref_rt3 cp (by omega) c3, convertDecode_rt3 cp (by omega) c3⟩
      · simp only [utf8Encode, if_neg c1, if_neg c2, if_neg c3]
        exact ⟨deref_rt4 cp (by omega) h, convertDecode_rt4 cp (by omega) h⟩

/-- Witness for `C7_roundtrip` at `U+10000`. -/
theorem C7_witness :
    ((0x10000 : Nat) ≤ 0x10FFFF ∧ ((0x10000 : Nat) < 0xD800 ∨ (0xDFFF : Nat) < 0x10000))
    ∧ (deref (utf8Encode 0x10000) = .ok 0x10000
       ∧ convertDecode (utf8Encode 0x10000) = some 0x10000) :=
  ⟨⟨by decide, Or.inr (by decide)⟩, C7_roundtrip 0x10000 (by decide) (Or.inr (by decide))⟩

/-- Claim C8, counterexample: a lone continuation byte and a truncated
sequence raise the same failure kind ("Length in header byte is wrong"), so
the failure kind does not distinguish `invalid_header` from
`truncated_sequence`. -/
theorem C8_counterexample :
    deref [0x80] = .error (0, ErrKind.lengthHeader)
    ∧ deref [0xF0, 0x90, 0x80] = .error (0, ErrKind.lengthHeader) :=
  ⟨by decide, by decide⟩

/-- Claim C8 as amended: decode failures carry the exact offending offset
and one of two kinds — the header/length kind, covering both an invalid
header and a truncated sequence, and the illegal-trailing-byte kind: a lone
continuation byte fails at offset 0 and a truncated sequence fails at the
header's offset, both with the header/length kind, while `C2 FF` fails at
offset 1 with the trailing-byte kind. -/
theorem C8_amended :
    deref [0x80] = .error (0, ErrKind.lengthHeader)
    ∧ deref [0xF0, 0x90, 0x80] = .error (0, ErrKind.lengthHeader)
    ∧ deref [0xC2, 0xFF] = .error (1, ErrKind.illegalTrail) :=
  ⟨by decide, by decide, by decide⟩

/-- Claim C9 (confirmed): neither decoder checks minimality — the overlong
encoding `C0 80` of `U+0000` is accepted by `convert` (one unit, value 0)
and by the lazy decoder (code point 0). -/
theorem C9_overlong_accepted :
    convert true [0xC0, 0x80] = .ok 1 [0]
    ∧ convert false [0xC0, 0x80] = .ok 1 []
    ∧ deref [0xC0, 0x80] = .ok 0 := by
  refine ⟨?_, ?_, by decide⟩
  · rw [convert_single true 0xC0 [0x80] 1 0 0 (by decide) rfl (by decide)]
    decide
  · rw [convert_single false 0xC0 [0x80] 1 0 0 (by decide) rfl (by decide)]
    decide

/-- Claim C10 (confirmed): `convert` never reaches the out-of-bounds read
marker: on every input, in either mode, it returns the failure sentinel or
a successful count — the `oob` branch of the trail loop is unreachable
because the truncation guard precedes it. -/
theorem C10_no_oob (w : Bool) (l : List Nat) :
    convert w l = ConvResult.fail ∨ ∃ n out, convert w l = ConvResult.ok n out := by
  rcases convert_modes l.length l le_rfl with ⟨hf, ht⟩ | ⟨n, out, hf, ht, _⟩
  · cases w
    · exact Or.inl hf
    · exact Or.inl ht
  · cases w
    · exact Or.inr ⟨n, [], hf⟩
    · exact Or.inr ⟨n, out, ht⟩
